import Mathlib

/-!
Shallow embedding of the hierarchical bounded ray-marching core of the
`toha` repository (GLSL sources `dda.glsl`, `bounds.glsl`,
`hierarchical.glsl`).  GLSL floats are modelled as exact rationals;
float literals such as `0.5`, `0.2`, `1e-6`, `1e-3` become the rationals
`1/2`, `1/5`, `1/1000000`, `1/1000`.  Euclidean distances are represented
by their squares (`length v > D` for `D ≥ 0` is equivalent to
`normSq v > D^2`), which keeps every definition inside `ℚ` and hence
executable.
-/

namespace Toha

/-- GLSL `vec3`, with exact rational components. -/
structure Vec3 where
  x : ℚ
  y : ℚ
  z : ℚ
deriving DecidableEq, Repr

/-- GLSL `ivec3`. -/
structure IVec3 where
  x : ℤ
  y : ℤ
  z : ℤ
deriving DecidableEq, Repr

def Vec3.add (a b : Vec3) : Vec3 := ⟨a.x + b.x, a.y + b.y, a.z + b.z⟩

def Vec3.sub (a b : Vec3) : Vec3 := ⟨a.x - b.x, a.y - b.y, a.z - b.z⟩

/-- Componentwise multiplication of a vector by a scalar (GLSL `v * s`). -/
def Vec3.scale (s : ℚ) (a : Vec3) : Vec3 := ⟨s * a.x, s * a.y, s * a.z⟩

/-- Componentwise division of a vector by a scalar (GLSL `v / s`). -/
def Vec3.divs (a : Vec3) (s : ℚ) : Vec3 := ⟨a.x / s, a.y / s, a.z / s⟩

/-- GLSL `floor` applied componentwise, yielding an `ivec3`. -/
def Vec3.vfloor (a : Vec3) : IVec3 := ⟨⌊a.x⌋, ⌊a.y⌋, ⌊a.z⌋⟩

/-- GLSL scalar `fract`. -/
def fract (q : ℚ) : ℚ := q - ⌊q⌋

/-- GLSL `fract` applied componentwise. -/
def Vec3.vfract (a : Vec3) : Vec3 := ⟨fract a.x, fract a.y, fract a.z⟩

/-- Squared Euclidean norm; `length v = Real.sqrt (normSq v)`. -/
def Vec3.normSq (a : Vec3) : ℚ := a.x ^ 2 + a.y ^ 2 + a.z ^ 2

def IVec3.toVec3 (c : IVec3) : Vec3 := ⟨(c.x : ℚ), (c.y : ℚ), (c.z : ℚ)⟩

def vzero : Vec3 := ⟨0, 0, 0⟩

def izero : IVec3 := ⟨0, 0, 0⟩

/-- `const int TOTAL_OCTAVES = 6` from `bounds.glsl`. -/
def TOTAL_OCTAVES : ℤ := 6

/-- Modelled from the spec: `MAX_LOD` lives in shader code missing from
`src/`; the repository documentation (`docs/TECH_SPEC.md`, Constants
section) fixes `MAX_LOD = 7`. -/
def MAX_LOD : ℤ := 7

/-- Modelled from the spec: `MAX_STEPS` lives in shader code missing from
`src/`; `docs/TECH_SPEC.md` fixes `MAX_STEPS = 200`. -/
def MAX_STEPS : ℕ := 200

/-- Modelled from the spec: `MAX_DISTANCE` lives in shader code missing
from `src/`; `docs/TECH_SPEC.md` fixes `MAX_DISTANCE = 50000`. -/
def MAX_DISTANCE : ℚ := 50000

/-- Amplitude of FBM octave `i`: the `evaluateOctaves` loop starts with
`a = 0.5` and halves it each octave, so octave `i` carries
`0.5 * 0.5^i`. -/
def amplitude (i : ℕ) : ℚ := (1 / 2) * (1 / 2) ^ i

/-- Modelled from the spec: `sumAmplitudes` lives in noise shader code
missing from `src/`; the spec (§4.1) specifies that it "returns the exact
sum of amplitudes over an octave range", here the half-open range
`[lo, hi)`. -/
def sumAmplitudes (lo hi : ℕ) : ℚ := Finset.sum (Finset.Ico lo hi) amplitude

/-- The body of the `evaluateOctaves` loop from `bounds.glsl`, as a
recursion on the remaining octave count with the amplitude and frequency
accumulators (`a`, `f`) explicit. -/
def evalOctavesAux (noise : Vec3 → ℚ) (p : Vec3) (a f : ℚ) : ℕ → ℚ
  | 0 => 0
  | n + 1 => a * noise (Vec3.scale f p) + evalOctavesAux noise p (a * (1 / 2)) (f * 2) n

/-- `evaluateOctaves` from `bounds.glsl`: fractal sum of `octaves` noise
terms, amplitude starting at `0.5` and halving, frequency starting at `1`
and doubling.  The base noise primitive `noise3D` is missing from `src/`
(spec §4.1 pins only determinism and range `[-1,1]`), so it is an explicit
function parameter. -/
def evaluateOctaves (noise : Vec3 → ℚ) (p : Vec3) (octaves : ℕ) : ℚ :=
  evalOctavesAux noise p (1 / 2) 1 octaves

/-- The full-resolution density: the fractal sum with all
`TOTAL_OCTAVES` octaves. -/
def trueDensity (noise : Vec3 → ℚ) (p : Vec3) : ℚ :=
  evaluateOctaves noise p TOTAL_OCTAVES.toNat

/-- The octave count used by `computeBounds`:
`int evalOctaves = max(1, TOTAL_OCTAVES - lod)`. -/
def evalOctaveCount (lod : ℤ) : ℤ := max 1 (TOTAL_OCTAVES - lod)

/-- Center of `cell` at level `lod`:
`(vec3(cell) + 0.5) * cellSize` with `cellSize = float(1 << lod)`. -/
def cellCenter (cell : IVec3) (lod : ℤ) : Vec3 :=
  Vec3.scale ((2 : ℚ) ^ lod.toNat) (Vec3.add cell.toVec3 ⟨1 / 2, 1 / 2, 1 / 2⟩)

/-- `struct NoiseBounds` from `bounds.glsl`. -/
structure NoiseBounds where
  min : ℚ
  max : ℚ
deriving DecidableEq, Repr

/-- `computeBounds` from `bounds.glsl`. -/
def computeBounds (noise : Vec3 → ℚ) (cell : IVec3) (lod : ℤ) : NoiseBounds :=
  let baseValue := evaluateOctaves noise (cellCenter cell lod) (evalOctaveCount lod).toNat
  let maxDeviation := sumAmplitudes (evalOctaveCount lod).toNat TOTAL_OCTAVES.toNat
  ⟨baseValue - maxDeviation, baseValue + maxDeviation⟩

/-- Integer lattice hash for the modelled value noise. -/
def hash3 (x y z : ℤ) : ℤ := (x * 8191 + y * 131071 + z * 524287 + 12289) % 65521

/-- Hashed lattice value mapped into `[-1, 1]`. -/
def latticeVal (x y z : ℤ) : ℚ := (hash3 x y z : ℚ) / 32760 - 1

/-- Linear interpolation. -/
def lerp (a b t : ℚ) : ℚ := a + (b - a) * t

/-- Modelled from the spec: `noise3D` lives in noise shader code missing
from `src/`; the spec (§4.1) describes "a deterministic, pure hash-based
value-noise primitive" with range `[-1,1]`.  This is a concrete instance:
trilinear interpolation of hashed lattice corner values. -/
def valueNoise3D (p : Vec3) : ℚ :=
  let ix := ⌊p.x⌋
  let iy := ⌊p.y⌋
  let iz := ⌊p.z⌋
  let fx := p.x - ix
  let fy := p.y - iy
  let fz := p.z - iz
  let c000 := latticeVal ix iy iz
  let c100 := latticeVal (ix + 1) iy iz
  let c010 := latticeVal ix (iy + 1) iz
  let c110 := latticeVal (ix + 1) (iy + 1) iz
  let c001 := latticeVal ix iy (iz + 1)
  let c101 := latticeVal (ix + 1) iy (iz + 1)
  let c011 := latticeVal ix (iy + 1) (iz + 1)
  let c111 := latticeVal (ix + 1) (iy + 1) (iz + 1)
  lerp (lerp (lerp c000 c100 fx) (lerp c010 c110 fx) fy)
       (lerp (lerp c001 c101 fx) (lerp c011 c111 fx) fy) fz

/-- The clamped per-axis divisor of `ddaExit`
(`max(abs(rd.x), 1e-6)` in `dda.glsl`). -/
def ddaDivisor (r : ℚ) : ℚ := max |r| (1 / 1000000)

/-- Per-axis time-to-boundary of `ddaExit`:
`(rd > 0 ? cellMax - pos : pos - cellMin) / max(abs(rd), 1e-6)`. -/
def ddaTMax (p r lo hi : ℚ) : ℚ := (if 0 < r then hi - p else p - lo) / ddaDivisor r

/-- Minimum of the cell box (`vec3(cell) * cellSize`). -/
def cellMinOf (cell : IVec3) (cellSize : ℚ) : Vec3 := Vec3.scale cellSize cell.toVec3

/-- Maximum of the cell box (`cellMin + cellSize`). -/
def cellMaxOf (cell : IVec3) (cellSize : ℚ) : Vec3 :=
  Vec3.add (cellMinOf cell cellSize) ⟨cellSize, cellSize, cellSize⟩

/-- `ddaExit` from `dda.glsl`. -/
def ddaExit (pos rd : Vec3) (cell : IVec3) (cellSize : ℚ) : Vec3 :=
  let lo := cellMinOf cell cellSize
  let hi := cellMaxOf cell cellSize
  let tX := ddaTMax pos.x rd.x lo.x hi.x
  let tY := ddaTMax pos.y rd.y lo.y hi.y
  let tZ := ddaTMax pos.z rd.z lo.z hi.z
  let tExit := min (min tX tY) tZ
  Vec3.add pos (Vec3.scale (tExit + 1 / 1000) rd)

/-- `canAscendLOD` from `hierarchical.glsl`: ascent is allowed only below
`MAX_LOD` and only when the fractional position inside the next-coarser
cell is at least `0.2` away from every face. -/
def canAscendLOD (pos : Vec3) (lod : ℤ) : Bool :=
  if MAX_LOD ≤ lod then false
  else
    let cellSize : ℚ := 2 ^ (lod + 1).toNat
    let f := Vec3.vfract (Vec3.divs pos cellSize)
    decide (1 / 5 < f.x ∧ 1 / 5 < f.y ∧ 1 / 5 < f.z ∧
            f.x < 4 / 5 ∧ f.y < 4 / 5 ∧ f.z < 4 / 5)

/-- `struct Hit` from `hierarchical.glsl`.  The `distance` float field is
represented by its square (`distanceSq`) so that it stays rational;
`distance = Real.sqrt distanceSq`. -/
structure HitRec where
  hit : ℤ
  pos : Vec3
  cell : IVec3
  distanceSq : ℚ
deriving DecidableEq, Repr

/-- `Miss()` from `hierarchical.glsl`: hit flag 0, zero position and
cell, and distance `MAX_DISTANCE` (squared here). -/
def missRec : HitRec := ⟨0, vzero, izero, MAX_DISTANCE ^ 2⟩

/-- The mutable loop state of `hierarchicalMarch`. -/
structure MarchState where
  pos : Vec3
  lod : ℤ
deriving DecidableEq, Repr

/-- Outcome of one iteration of the `hierarchicalMarch` loop: either the
loop keeps going with a new state, or the function returns a record. -/
inductive StepResult where
  | next (s : MarchState) : StepResult
  | halt (h : HitRec) : StepResult
deriving DecidableEq, Repr

/-- The cell that `hierarchicalMarch` computes for the current state:
`ivec3(floor(pos / cellSize))` with `cellSize = float(1 << lod)`. -/
def currentCell (s : MarchState) : IVec3 :=
  Vec3.vfloor (Vec3.divs s.pos ((2 : ℚ) ^ s.lod.toNat))

/-- The `Hit` record built by the two hit returns of `hierarchicalMarch`:
flag 1, current position, current cell, and distance travelled from the
ray origin (squared here). -/
def hitRecAt (ro : Vec3) (s : MarchState) (cell : IVec3) : HitRec :=
  ⟨1, s.pos, cell, Vec3.normSq (Vec3.sub s.pos ro)⟩

/-- Modelled from the spec: `worldDensity` lives in world shader code
missing from `src/`.  Spec §4.2 makes classification "a total, pure
function of integer cell coordinate only", so the density sampled at a
position is the density of the cell containing it; the cell-density field
itself stays an explicit parameter. -/
def worldDensity (cellD : IVec3 → ℚ) (p : Vec3) : ℚ := cellD (Vec3.vfloor p)

/-- The three-way classification branch of the `hierarchicalMarch` loop
body (everything before the final distance check).  `thr` is
`BLOCK_THRESHOLD`, whose defining shader is missing from `src/`, hence a
parameter. -/
def branchStep (noise : Vec3 → ℚ) (cellD : IVec3 → ℚ) (thr : ℚ)
    (ro rd : Vec3) (s : MarchState) : StepResult :=
  let cellSize : ℚ := 2 ^ s.lod.toNat
  let cell := currentCell s
  let b := computeBounds noise cell s.lod
  if b.max < thr then
    let pos2 := ddaExit s.pos rd cell cellSize
    .next ⟨pos2, if canAscendLOD pos2 s.lod then s.lod + 1 else s.lod⟩
  else if thr < b.min then
    if s.lod = 0 then .halt (hitRecAt ro s cell)
    else .next ⟨s.pos, s.lod - 1⟩
  else
    if s.lod = 0 then
      if thr < worldDensity cellD s.pos then .halt (hitRecAt ro s cell)
      else .next ⟨ddaExit s.pos rd cell 1, s.lod⟩
    else .next ⟨s.pos, s.lod - 1⟩

/-- One full iteration of the `hierarchicalMarch` loop: the
classification branch followed by the
`if (length(pos - ro) > MAX_DISTANCE) break;` check (squared form). -/
def marchStep (noise : Vec3 → ℚ) (cellD : IVec3 → ℚ) (thr : ℚ)
    (ro rd : Vec3) (s : MarchState) : StepResult :=
  match branchStep noise cellD thr ro rd s with
  | .halt h => .halt h
  | .next s2 =>
      if MAX_DISTANCE ^ 2 < Vec3.normSq (Vec3.sub s2.pos ro) then .halt missRec
      else .next s2

/-- The `for (int step = 0; step < MAX_STEPS; ++step)` loop of
`hierarchicalMarch`, recursing on the remaining iteration budget; an
exhausted budget returns `Miss()`. -/
def marchAux (noise : Vec3 → ℚ) (cellD : IVec3 → ℚ) (thr : ℚ)
    (ro rd : Vec3) : ℕ → MarchState → HitRec
  | 0, _ => missRec
  | n + 1, s =>
      match marchStep noise cellD thr ro rd s with
      | .halt h => h
      | .next s2 => marchAux noise cellD thr ro rd n s2

/-- `hierarchicalMarch` from `hierarchical.glsl`: start at the ray origin
with `lod = MAX_LOD` and run the loop for at most `MAX_STEPS`
iterations. -/
def hierarchicalMarch (noise : Vec3 → ℚ) (cellD : IVec3 → ℚ) (thr : ℚ)
    (ro rd : Vec3) : HitRec :=
  marchAux noise cellD thr ro rd MAX_STEPS ⟨ro, MAX_LOD⟩

/-- Membership of a point in the open interior of a cell box. -/
def inOpenBox (p lo hi : Vec3) : Prop :=
  lo.x < p.x ∧ p.x < hi.x ∧ lo.y < p.y ∧ p.y < hi.y ∧ lo.z < p.z ∧ p.z < hi.z

/-- Membership of a point in the closed cell box. -/
def inClosedBox (p lo hi : Vec3) : Prop :=
  lo.x ≤ p.x ∧ p.x ≤ hi.x ∧ lo.y ≤ p.y ∧ p.y ≤ hi.y ∧ lo.z ≤ p.z ∧ p.z ≤ hi.z

/-- A point lies on a face of the box: it is in the closed box and one of
its coordinates sits on a bounding plane. -/
def onBoxFace (p lo hi : Vec3) : Prop :=
  inClosedBox p lo hi ∧
    (p.x = lo.x ∨ p.x = hi.x ∨ p.y = lo.y ∨ p.y = hi.y ∨ p.z = lo.z ∨ p.z = hi.z)

instance (p lo hi : Vec3) : Decidable (inOpenBox p lo hi) := by
  unfold inOpenBox; infer_instance

instance (p lo hi : Vec3) : Decidable (inClosedBox p lo hi) := by
  unfold inClosedBox; infer_instance

instance (p lo hi : Vec3) : Decidable (onBoxFace p lo hi) := by
  unfold onBoxFace; infer_instance

theorem amplitude_nonneg (i : ℕ) : 0 ≤ amplitude i := by
  unfold amplitude; positivity

theorem sumAmplitudes_nonneg (lo hi : ℕ) : 0 ≤ sumAmplitudes lo hi :=
  Finset.sum_nonneg fun i _ => amplitude_nonneg i

theorem evalOctavesAux_eq_sum (noise : Vec3 → ℚ) (p : Vec3) (a f : ℚ) (n : ℕ) :
    evalOctavesAux noise p a f n =
      Finset.sum (Finset.range n)
        (fun i => a * (1 / 2 : ℚ) ^ i * noise (Vec3.scale (f * 2 ^ i) p)) := by
  induction n generalizing a f with
  | zero => simp [evalOctavesAux]
  | succ n ih =>
      rw [evalOctavesAux, ih, Finset.sum_range_succ']
      have hterm : ∀ i : ℕ,
          a * (1 / 2 : ℚ) ^ (i + 1) * noise (Vec3.scale (f * 2 ^ (i + 1)) p) =
            a * (1 / 2) * (1 / 2 : ℚ) ^ i * noise (Vec3.scale (f * 2 * 2 ^ i) p) := by
        intro i
        have h1 : f * 2 ^ (i + 1) = f * 2 * 2 ^ i := by ring
        have h2 : a * (1 / 2 : ℚ) ^ (i + 1) = a * (1 / 2) * (1 / 2 : ℚ) ^ i := by ring
        rw [h1, h2]
      simp only [hterm, pow_zero, mul_one]
      ring

theorem evaluateOctaves_eq_sum (noise : Vec3 → ℚ) (p : Vec3) (n : ℕ) :
    evaluateOctaves noise p n =
      Finset.sum (Finset.range n)
        (fun i => amplitude i * noise (Vec3.scale ((2 : ℚ) ^ i) p)) := by
  rw [evaluateOctaves, evalOctavesAux_eq_sum]
  refine Finset.sum_congr rfl ?_
  intro i _
  rw [amplitude, one_mul]

theorem evalOctaveCount_le (lod : ℤ) (h0 : 0 ≤ lod) :
    (evalOctaveCount lod).toNat ≤ TOTAL_OCTAVES.toNat := by
  simp only [evalOctaveCount, TOTAL_OCTAVES]
  omega

/-- Claim C1 (counterexample): with the spec-modelled value-noise
instance, the bound computed for cell `(0,0,0)` at LOD `0` fails to
contain the full-resolution density at the point `(1/4, 1/4, 1/4)`, a
point inside that cell's volume: the deviation term only covers the
skipped octaves, not the variation of the evaluated octaves away from
the cell center. -/
theorem computeBounds_soundness_cx :
    inClosedBox ⟨1 / 4, 1 / 4, 1 / 4⟩ (cellMinOf izero ((2 : ℚ) ^ (0 : ℤ).toNat))
        (cellMaxOf izero ((2 : ℚ) ^ (0 : ℤ).toNat)) ∧
      ¬ ((computeBounds valueNoise3D izero 0).min ≤
            trueDensity valueNoise3D ⟨1 / 4, 1 / 4, 1 / 4⟩ ∧
          trueDensity valueNoise3D ⟨1 / 4, 1 / 4, 1 / 4⟩ ≤
            (computeBounds valueNoise3D izero 0).max) := by
  constructor
  · norm_num [inClosedBox, cellMinOf, cellMaxOf, Vec3.scale, Vec3.add, IVec3.toVec3, izero]
  · norm_num [computeBounds, trueDensity, evaluateOctaves, evalOctavesAux, valueNoise3D,
      latticeVal, hash3, lerp, sumAmplitudes, amplitude, evalOctaveCount, cellCenter,
      TOTAL_OCTAVES, Vec3.scale, Vec3.add, IVec3.toVec3, izero,
      Finset.sum_Ico_eq_sum_range, Finset.sum_range_succ]

/-- Claim C1 (amended): for every noise primitive bounded in `[-1, 1]`
(the spec's contract for the missing `noise3D`), every cell, and every
LOD `l ≥ 0`, the interval returned by `computeBounds` contains the true
full-resolution density at the cell's center — soundness holds at the
center point, not at arbitrary points of the cell volume. -/
theorem computeBounds_sound_at_center (noise : Vec3 → ℚ)
    (hn : ∀ q : Vec3, |noise q| ≤ 1) (cell : IVec3) (lod : ℤ) (h0 : 0 ≤ lod) :
    (computeBounds noise cell lod).min ≤ trueDensity noise (cellCenter cell lod) ∧
      trueDensity noise (cellCenter cell lod) ≤ (computeBounds noise cell lod).max := by
  have hN := evalOctaveCount_le lod h0
  have hsplit :
      trueDensity noise (cellCenter cell lod) =
        evaluateOctaves noise (cellCenter cell lod) (evalOctaveCount lod).toNat +
          Finset.sum (Finset.Ico (evalOctaveCount lod).toNat TOTAL_OCTAVES.toNat)
            (fun i => amplitude i * noise (Vec3.scale ((2 : ℚ) ^ i) (cellCenter cell lod))) := by
    rw [trueDensity, evaluateOctaves_eq_sum, evaluateOctaves_eq_sum, Finset.range_eq_Ico]
    exact (Finset.sum_Ico_consecutive _ (Nat.zero_le _) hN).symm
  have hdev :
      |Finset.sum (Finset.Ico (evalOctaveCount lod).toNat TOTAL_OCTAVES.toNat)
          (fun i => amplitude i * noise (Vec3.scale ((2 : ℚ) ^ i) (cellCenter cell lod)))| ≤
        sumAmplitudes (evalOctaveCount lod).toNat TOTAL_OCTAVES.toNat := by
    refine le_trans (Finset.abs_sum_le_sum_abs _ _) ?_
    rw [sumAmplitudes]
    refine Finset.sum_le_sum ?_
    intro i _
    rw [abs_mul, abs_of_nonneg (amplitude_nonneg i)]
    calc amplitude i * |noise (Vec3.scale ((2 : ℚ) ^ i) (cellCenter cell lod))|
        ≤ amplitude i * 1 := mul_le_mul_of_nonneg_left (hn _) (amplitude_nonneg i)
      _ = amplitude i := mul_one _
  obtain ⟨hd1, hd2⟩ := abs_le.mp hdev
  constructor
  · simp only [computeBounds]
    linarith [hsplit]
  · simp only [computeBounds]
    linarith [hsplit]

/-- Witness for `computeBounds_sound_at_center` at the zero noise
function, cell `(0,0,0)`, LOD `1`. -/
theorem computeBounds_sound_at_center_w :
    (0 : ℤ) ≤ 1 ∧
      ((computeBounds (fun _ => (0 : ℚ)) izero 1).min ≤
          trueDensity (fun _ => (0 : ℚ)) (cellCenter izero 1) ∧
        trueDensity (fun _ => (0 : ℚ)) (cellCenter izero 1) ≤
          (computeBounds (fun _ => (0 : ℚ)) izero 1).max) :=
  ⟨by norm_num,
    computeBounds_sound_at_center (fun _ => (0 : ℚ)) (fun q => by norm_num) izero 1
      (by norm_num)⟩

/-- Claim C2 (confirmed): for every noise function, cell and LOD the
bound satisfies `min ≤ centerValue ≤ max`, where `centerValue` is the
truncated fractal sum at the cell center; at LOD `0` the bound
degenerates to the exact full-resolution density at the center with zero
deviation. -/
theorem computeBounds_center_contract (noise : Vec3 → ℚ) (cell : IVec3) (lod : ℤ) :
    ((computeBounds noise cell lod).min ≤
        evaluateOctaves noise (cellCenter cell lod) (evalOctaveCount lod).toNat ∧
      evaluateOctaves noise (cellCenter cell lod) (evalOctaveCount lod).toNat ≤
        (computeBounds noise cell lod).max) ∧
    (lod = 0 →
      (computeBounds noise cell lod).min = (computeBounds noise cell lod).max ∧
      (computeBounds noise cell lod).min = trueDensity noise (cellCenter cell lod)) := by
  have hdev := sumAmplitudes_nonneg (evalOctaveCount lod).toNat TOTAL_OCTAVES.toNat
  refine ⟨⟨?_, ?_⟩, ?_⟩
  · simp only [computeBounds]; linarith
  · simp only [computeBounds]; linarith
  · intro h
    subst h
    have he : (evalOctaveCount 0).toNat = 6 := rfl
    have ht : TOTAL_OCTAVES.toNat = 6 := rfl
    have hz : sumAmplitudes 6 6 = 0 := by simp [sumAmplitudes]
    constructor
    · simp only [computeBounds, he, ht, hz]; ring
    · simp only [computeBounds, trueDensity, he, ht, hz]; ring

/-- Witness for `computeBounds_center_contract` at the zero noise
function, cell `(0,0,0)`, LOD `0`. -/
theorem computeBounds_center_contract_w :
    (computeBounds (fun _ => (0 : ℚ)) izero 0).min =
        (computeBounds (fun _ => (0 : ℚ)) izero 0).max ∧
      (computeBounds (fun _ => (0 : ℚ)) izero 0).min =
        trueDensity (fun _ => (0 : ℚ)) (cellCenter izero 0) :=
  (computeBounds_center_contract (fun _ => (0 : ℚ)) izero 0).2 rfl

/-- Claim C3 (counterexample): LOD `6` lies in `[0, MAX_LOD]` (with the
spec-modelled `MAX_LOD = 7`), yet `computeBounds` evaluates
`max(1, TOTAL_OCTAVES - lod) = 1` octave there instead of
`TOTAL_OCTAVES - 6 = 0`; for the constant-one noise the resulting bound
differs from the bound the claimed schedule would give. -/
theorem computeBounds_octave_schedule_cx :
    ((0 : ℤ) ≤ 6 ∧ (6 : ℤ) ≤ MAX_LOD) ∧
      evalOctaveCount 6 ≠ TOTAL_OCTAVES - 6 ∧
      (computeBounds (fun _ => (1 : ℚ)) izero 6).min ≠
        evaluateOctaves (fun _ => (1 : ℚ)) (cellCenter izero 6) (TOTAL_OCTAVES - 6).toNat -
          sumAmplitudes (TOTAL_OCTAVES - 6).toNat TOTAL_OCTAVES.toNat := by
  refine ⟨⟨by norm_num, by norm_num [MAX_LOD]⟩, by decide, ?_⟩
  have hA : TOTAL_OCTAVES.toNat = 6 := rfl
  have hB : (TOTAL_OCTAVES - 6).toNat = 0 := rfl
  have hC : (evalOctaveCount 6).toNat = 1 := rfl
  norm_num [computeBounds, evaluateOctaves, evalOctavesAux, sumAmplitudes, amplitude,
    hA, hB, hC, Finset.sum_Ico_eq_sum_range, Finset.sum_range_succ]

/-- Claim C3 (amended): for every cell and LOD `l` in `[0, MAX_LOD]`,
`computeBounds` evaluates the fractal sum at the cell's center with
exactly `max(1, TOTAL_OCTAVES - l)` octaves; this equals
`TOTAL_OCTAVES - l` for `l ≤ TOTAL_OCTAVES - 1` but is clamped to `1`
octave for coarser LODs. -/
theorem computeBounds_octave_schedule (noise : Vec3 → ℚ) (cell : IVec3) (lod : ℤ)
    (h0 : 0 ≤ lod) (_hM : lod ≤ MAX_LOD) :
    evalOctaveCount lod = max 1 (TOTAL_OCTAVES - lod) ∧
      (lod ≤ TOTAL_OCTAVES - 1 → evalOctaveCount lod = TOTAL_OCTAVES - lod) ∧
      computeBounds noise cell lod =
        ⟨evaluateOctaves noise (cellCenter cell lod) (evalOctaveCount lod).toNat -
            sumAmplitudes (evalOctaveCount lod).toNat TOTAL_OCTAVES.toNat,
          evaluateOctaves noise (cellCenter cell lod) (evalOctaveCount lod).toNat +
            sumAmplitudes (evalOctaveCount lod).toNat TOTAL_OCTAVES.toNat⟩ := by
  refine ⟨rfl, ?_, rfl⟩
  intro h
  simp only [evalOctaveCount, TOTAL_OCTAVES] at *
  omega

/-- Witness for `computeBounds_octave_schedule` at the zero noise
function, cell `(0,0,0)`, LOD `2`. -/
theorem computeBounds_octave_schedule_w :
    (0 : ℤ) ≤ 2 ∧ (2 : ℤ) ≤ MAX_LOD ∧ (2 : ℤ) ≤ TOTAL_OCTAVES - 1 ∧
      evalOctaveCount 2 = TOTAL_OCTAVES - 2 :=
  ⟨by norm_num, by norm_num [MAX_LOD],  by norm_num [TOTAL_OCTAVES],
    (computeBounds_octave_schedule (fun _ => (0 : ℚ)) izero 2 (by norm_num)
      (by norm_num [MAX_LOD])).2.1 (by norm_num [TOTAL_OCTAVES])⟩

/-- Claim C4 (confirmed): `evaluateOctaves p n` is exactly the FBM sum
`Σ_{i<n} 0.5 * 0.5^i * noise(p * 2^i)` (base amplitude `0.5`, base
frequency `1`, each octave doubling frequency and halving amplitude),
and for every LOD `l ≥ 0` the evaluated octave range
`[0, evalOctaves)` and the skipped range `[evalOctaves, TOTAL_OCTAVES)`
passed to `sumAmplitudes` partition the `TOTAL_OCTAVES` octaves with no
gap or overlap. -/
theorem evaluateOctaves_schedule_partition (noise : Vec3 → ℚ) (p : Vec3) (n : ℕ)
    (lod : ℤ) (h0 : 0 ≤ lod) :
    evaluateOctaves noise p n =
      Finset.sum (Finset.range n)
        (fun i => (1 / 2) * (1 / 2 : ℚ) ^ i * noise (Vec3.scale ((2 : ℚ) ^ i) p)) ∧
    Finset.Ico 0 (evalOctaveCount lod).toNat ∪
        Finset.Ico (evalOctaveCount lod).toNat TOTAL_OCTAVES.toNat =
      Finset.range TOTAL_OCTAVES.toNat ∧
    Disjoint (Finset.Ico 0 (evalOctaveCount lod).toNat)
      (Finset.Ico (evalOctaveCount lod).toNat TOTAL_OCTAVES.toNat) := by
  refine ⟨?_, ?_, Finset.Ico_disjoint_Ico_consecutive 0 _ _⟩
  · rw [evaluateOctaves_eq_sum]
    refine Finset.sum_congr rfl ?_
    intro i _
    rw [amplitude]
  · rw [Finset.Ico_union_Ico_eq_Ico (Nat.zero_le _) (evalOctaveCount_le lod h0),
      Finset.range_eq_Ico]

/-- Witness for `evaluateOctaves_schedule_partition` at the zero noise
function, `p = (0,0,0)`, `n = 2`, LOD `3`. -/
theorem evaluateOctaves_schedule_partition_w :
    (0 : ℤ) ≤ 3 ∧
      (evaluateOctaves (fun _ => (0 : ℚ)) vzero 2 =
          Finset.sum (Finset.range 2)
            (fun i => (1 / 2) * (1 / 2 : ℚ) ^ i * (fun _ : Vec3 => (0 : ℚ))
              (Vec3.scale ((2 : ℚ) ^ i) vzero)) ∧
        Finset.Ico 0 (evalOctaveCount 3).toNat ∪
            Finset.Ico (evalOctaveCount 3).toNat TOTAL_OCTAVES.toNat =
          Finset.range TOTAL_OCTAVES.toNat ∧
        Disjoint (Finset.Ico 0 (evalOctaveCount 3).toNat)
          (Finset.Ico (evalOctaveCount 3).toNat TOTAL_OCTAVES.toNat)) :=
  ⟨by norm_num,
    evaluateOctaves_schedule_partition (fun _ => (0 : ℚ)) vzero 2 3 (by norm_num)⟩

theorem ddaDivisor_pos (r : ℚ) : 0 < ddaDivisor r :=
  lt_of_lt_of_le (by norm_num) (le_max_right _ _)

theorem ddaDivisor_eq_abs (r : ℚ) (hr : 1 / 1000000 ≤ |r|) : ddaDivisor r = |r| :=
  max_eq_left hr

theorem ddaTMax_pos (p r lo hi : ℚ) (h1 : lo < p) (h2 : p < hi) :
    0 < ddaTMax p r lo hi := by
  unfold ddaTMax
  apply div_pos _ (ddaDivisor_pos r)
  split_ifs <;> linarith

theorem abs_ge_ne_zero (r : ℚ) (hr : 1 / 1000000 ≤ |r|) : r ≠ 0 := by
  intro h
  rw [h, abs_zero] at hr
  linarith

theorem ddaTMax_mem (p r lo hi t : ℚ) (hr : 1 / 1000000 ≤ |r|)
    (h1 : lo ≤ p) (h2 : p ≤ hi) (ht0 : 0 ≤ t) (ht : t ≤ ddaTMax p r lo hi) :
    lo ≤ p + t * r ∧ p + t * r ≤ hi := by
  have hrne : r ≠ 0 := abs_ge_ne_zero r hr
  rcases lt_or_gt_of_ne hrne with hneg | hpos
  · have habs : |r| = -r := abs_of_neg hneg
    have hT : ddaTMax p r lo hi = (p - lo) / (-r) := by
      unfold ddaTMax
      rw [ddaDivisor_eq_abs r hr, habs, if_neg (not_lt.mpr hneg.le)]
    have hTr : ddaTMax p r lo hi * (-r) = p - lo := by
      rw [hT]
      field_simp
    have hmul : t * (-r) ≤ ddaTMax p r lo hi * (-r) :=
      mul_le_mul_of_nonneg_right ht (by linarith)
    constructor
    · nlinarith
    · nlinarith [mul_nonneg ht0 (neg_nonneg.mpr hneg.le)]
  · have habs : |r| = r := abs_of_pos hpos
    have hT : ddaTMax p r lo hi = (hi - p) / r := by
      unfold ddaTMax
      rw [ddaDivisor_eq_abs r hr, habs, if_pos hpos]
    have hTr : ddaTMax p r lo hi * r = hi - p := by
      rw [hT]
      field_simp
    have hmul : t * r ≤ ddaTMax p r lo hi * r :=
      mul_le_mul_of_nonneg_right ht hpos.le
    constructor
    · nlinarith [mul_nonneg ht0 hpos.le]
    · nlinarith

theorem ddaTMax_face (p r lo hi : ℚ) (hr : 1 / 1000000 ≤ |r|) :
    p + ddaTMax p r lo hi * r = lo ∨ p + ddaTMax p r lo hi * r = hi := by
  have hrne : r ≠ 0 := abs_ge_ne_zero r hr
  rcases lt_or_gt_of_ne hrne with hneg | hpos
  · left
    have habs : |r| = -r := abs_of_neg hneg
    have hrn : -r ≠ 0 := neg_ne_zero.mpr hrne
    unfold ddaTMax
    rw [ddaDivisor_eq_abs r hr, habs, if_neg (not_lt.mpr hneg.le)]
    field_simp
    ring
  · right
    have habs : |r| = r := abs_of_pos hpos
    unfold ddaTMax
    rw [ddaDivisor_eq_abs r hr, habs, if_pos hpos]
    field_simp

/-- Claim C5 (counterexample): for the unit direction `(1,0,0)` and the
position `(1/2, 1e-9, 1/2)` strictly inside cell `(0,0,0)` of size `1`,
the clamped divisor on the degenerate `y` axis produces a spurious small
exit time, and the point returned by `ddaExit`, even after removing the
intentional `1e-3` nudge along the direction, lies on no face of the
cell's box. -/
theorem ddaExit_exactness_cx :
    inOpenBox ⟨1 / 2, 1 / 1000000000, 1 / 2⟩ (cellMinOf izero 1) (cellMaxOf izero 1) ∧
      Vec3.normSq ⟨1, 0, 0⟩ = 1 ∧
      ¬ onBoxFace
          (Vec3.sub (ddaExit ⟨1 / 2, 1 / 1000000000, 1 / 2⟩ ⟨1, 0, 0⟩ izero 1)
            (Vec3.scale (1 / 1000) ⟨1, 0, 0⟩))
          (cellMinOf izero 1) (cellMaxOf izero 1) := by
  refine ⟨?_, ?_, ?_⟩
  · norm_num [inOpenBox, cellMinOf, cellMaxOf, Vec3.scale, Vec3.add, IVec3.toVec3, izero]
  · norm_num [Vec3.normSq]
  · norm_num [onBoxFace, inClosedBox, ddaExit, ddaTMax, ddaDivisor, cellMinOf, cellMaxOf,
      Vec3.add, Vec3.sub, Vec3.scale, IVec3.toVec3, izero, abs_zero, abs_one,
      max_def, min_def]

/-- Claim C5 (amended): when no axis of the direction is degenerate
(every component has magnitude at least the clamp constant `1e-6`) and
`pos` is strictly inside the cell's box, `ddaExit` advances the ray
parameter by a strictly positive amount `t + 1e-3`, and the un-nudged
point `pos + t * rd` lies exactly on one face of the box.  (With a
unit-length `rd` the ray parameter is the distance along the ray, so the
step advances strictly forward.) -/
theorem ddaExit_face_progress (pos rd : Vec3) (cell : IVec3) (cellSize : ℚ)
    (hin : inOpenBox pos (cellMinOf cell cellSize) (cellMaxOf cell cellSize))
    (hx : 1 / 1000000 ≤ |rd.x|) (hy : 1 / 1000000 ≤ |rd.y|)
    (hz : 1 / 1000000 ≤ |rd.z|) :
    ∃ t : ℚ, 0 < t ∧
      ddaExit pos rd cell cellSize = Vec3.add pos (Vec3.scale (t + 1 / 1000) rd) ∧
      onBoxFace (Vec3.add pos (Vec3.scale t rd))
        (cellMinOf cell cellSize) (cellMaxOf cell cellSize) := by
  obtain ⟨hx1, hx2, hy1, hy2, hz1, hz2⟩ := hin
  refine ⟨min (min (ddaTMax pos.x rd.x (cellMinOf cell cellSize).x (cellMaxOf cell cellSize).x)
      (ddaTMax pos.y rd.y (cellMinOf cell cellSize).y (cellMaxOf cell cellSize).y))
      (ddaTMax pos.z rd.z (cellMinOf cell cellSize).z (cellMaxOf cell cellSize).z),
    ?_, rfl, ?_⟩
  · exact lt_min (lt_min (ddaTMax_pos _ _ _ _ hx1 hx2) (ddaTMax_pos _ _ _ _ hy1 hy2))
      (ddaTMax_pos _ _ _ _ hz1 hz2)
  · set tX := ddaTMax pos.x rd.x (cellMinOf cell cellSize).x (cellMaxOf cell cellSize).x
      with htXd
    set tY := ddaTMax pos.y rd.y (cellMinOf cell cellSize).y (cellMaxOf cell cellSize).y
      with htYd
    set tZ := ddaTMax pos.z rd.z (cellMinOf cell cellSize).z (cellMaxOf cell cellSize).z
      with htZd
    set t := min (min tX tY) tZ with htd
    have ht0 : 0 ≤ t :=
      le_of_lt (lt_min (lt_min (ddaTMax_pos _ _ _ _ hx1 hx2) (ddaTMax_pos _ _ _ _ hy1 hy2))
        (ddaTMax_pos _ _ _ _ hz1 hz2))
    have htx : t ≤ tX := le_trans (min_le_left _ _) (min_le_left _ _)
    have hty : t ≤ tY := le_trans (min_le_left _ _) (min_le_right _ _)
    have htz : t ≤ tZ := min_le_right _ _
    have hmx := ddaTMax_mem pos.x rd.x _ _ t hx hx1.le hx2.le ht0 htx
    have hmy := ddaTMax_mem pos.y rd.y _ _ t hy hy1.le hy2.le ht0 hty
    have hmz := ddaTMax_mem pos.z rd.z _ _ t hz hz1.le hz2.le ht0 htz
    constructor
    · exact ⟨hmx.1, hmx.2, hmy.1, hmy.2, hmz.1, hmz.2⟩
    · show pos.x + t * rd.x = _ ∨ pos.x + t * rd.x = _ ∨ pos.y + t * rd.y = _ ∨
        pos.y + t * rd.y = _ ∨ pos.z + t * rd.z = _ ∨ pos.z + t * rd.z = _
      rcases min_choice (min tX tY) tZ with hc | hc
      · rcases min_choice tX tY with hc2 | hc2
        · have hteq : t = tX := by rw [htd, hc, hc2]
          rcases ddaTMax_face pos.x rd.x _ _ hx with hf | hf
          · exact Or.inl (by rw [hteq]; exact hf)
          · exact Or.inr (Or.inl (by rw [hteq]; exact hf))
        · have hteq : t = tY := by rw [htd, hc, hc2]
          rcases ddaTMax_face pos.y rd.y _ _ hy with hf | hf
          · exact Or.inr (Or.inr (Or.inl (by rw [hteq]; exact hf)))
          · exact Or.inr (Or.inr (Or.inr (Or.inl (by rw [hteq]; exact hf))))
      · have hteq : t = tZ := by rw [htd, hc]
        rcases ddaTMax_face pos.z rd.z _ _ hz with hf | hf
        · exact Or.inr (Or.inr (Or.inr (Or.inr (Or.inl (by rw [hteq]; exact hf)))))
        · exact Or.inr (Or.inr (Or.inr (Or.inr (Or.inr (by rw [hteq]; exact hf)))))

/-- Witness for `ddaExit_face_progress`: cell `(0,0,0)` of size `1`,
position at the cell center, direction `(1,1,1)`. -/
theorem ddaExit_face_progress_w :
    inOpenBox ⟨1 / 2, 1 / 2, 1 / 2⟩ (cellMinOf izero 1) (cellMaxOf izero 1) ∧
      (∃ t : ℚ, 0 < t ∧
        ddaExit ⟨1 / 2, 1 / 2, 1 / 2⟩ ⟨1, 1, 1⟩ izero 1 =
          Vec3.add ⟨1 / 2, 1 / 2, 1 / 2⟩ (Vec3.scale (t + 1 / 1000) ⟨1, 1, 1⟩) ∧
        onBoxFace (Vec3.add ⟨1 / 2, 1 / 2, 1 / 2⟩ (Vec3.scale t ⟨1, 1, 1⟩))
          (cellMinOf izero 1) (cellMaxOf izero 1)) :=
  ⟨by norm_num [inOpenBox, cellMinOf, cellMaxOf, Vec3.scale, Vec3.add, IVec3.toVec3, izero],
    ddaExit_face_progress ⟨1 / 2, 1 / 2, 1 / 2⟩ ⟨1, 1, 1⟩ izero 1
      (by norm_num [inOpenBox, cellMinOf, cellMaxOf, Vec3.scale, Vec3.add, IVec3.toVec3, izero])
      (by norm_num) (by norm_num) (by norm_num)⟩

/-- Claim C6 (confirmed): every per-axis divisor used by `ddaExit` is
clamped to at least `1e-6`, hence strictly positive — no division by
zero occurs for any direction — and `ddaExit` is total: even for the
all-zero direction it returns a definite (finite) point, namely `pos`
itself. -/
theorem ddaExit_totality :
    (∀ r : ℚ, 1 / 1000000 ≤ ddaDivisor r ∧ 0 < ddaDivisor r) ∧
      (∀ (pos : Vec3) (cell : IVec3) (cellSize : ℚ), ddaExit pos vzero cell cellSize = pos) := by
  constructor
  · exact fun r => ⟨le_max_right _ _, ddaDivisor_pos r⟩
  · intro pos cell cellSize
    cases pos
    simp [ddaExit, Vec3.add, Vec3.scale, vzero]

theorem canAscendLOD_lt (p : Vec3) (l : ℤ) (h : canAscendLOD p l = true) : l < MAX_LOD := by
  by_contra hc
  unfold canAscendLOD at h
  rw [if_pos (not_lt.mp hc)] at h
  exact Bool.false_ne_true h

theorem branchStep_lod_range (noise : Vec3 → ℚ) (cellD : IVec3 → ℚ) (thr : ℚ)
    (ro rd : Vec3) (s s2 : MarchState) (h0 : 0 ≤ s.lod) (hM : s.lod ≤ MAX_LOD)
    (h : branchStep noise cellD thr ro rd s = .next s2) :
    0 ≤ s2.lod ∧ s2.lod ≤ MAX_LOD := by
  simp only [branchStep] at h
  split_ifs at h with h1 h2 h3 h4 h5 h6
  all_goals
    first
      | exact StepResult.noConfusion h
      | (injection h with h
         subst h
         try have hlt := canAscendLOD_lt _ _ h2
         dsimp only
         omega)

theorem marchStep_lod_range (noise : Vec3 → ℚ) (cellD : IVec3 → ℚ) (thr : ℚ)
    (ro rd : Vec3) (s s2 : MarchState) (h0 : 0 ≤ s.lod) (hM : s.lod ≤ MAX_LOD)
    (h : marchStep noise cellD thr ro rd s = .next s2) :
    0 ≤ s2.lod ∧ s2.lod ≤ MAX_LOD := by
  cases hb : branchStep noise cellD thr ro rd s with
  | halt hh =>
      simp only [marchStep, hb] at h
      exact StepResult.noConfusion h
  | next s3 =>
      simp only [marchStep, hb] at h
      split_ifs at h
      injection h with h
      subst h
      exact branchStep_lod_range noise cellD thr ro rd s s3 h0 hM hb

/-- Claim C7 (confirmed): the traversal starts at `lod = MAX_LOD`, which
is in `[0, MAX_LOD]`, every loop iteration maps a state with
`0 ≤ lod ≤ MAX_LOD` to a state with `0 ≤ lod ≤ MAX_LOD` (ascents are
gated by `canAscendLOD`, descents only happen at `lod ≠ 0`), and
`canAscendLOD` can only hold below `MAX_LOD`. -/
theorem march_lod_invariant (noise : Vec3 → ℚ) (cellD : IVec3 → ℚ) (thr : ℚ)
    (ro rd : Vec3) :
    (0 ≤ (MarchState.mk ro MAX_LOD).lod ∧ (MarchState.mk ro MAX_LOD).lod ≤ MAX_LOD) ∧
    (∀ s s2 : MarchState, 0 ≤ s.lod → s.lod ≤ MAX_LOD →
      marchStep noise cellD thr ro rd s = .next s2 → 0 ≤ s2.lod ∧ s2.lod ≤ MAX_LOD) ∧
    (∀ (p : Vec3) (l : ℤ), canAscendLOD p l = true → l < MAX_LOD) := by
  refine ⟨⟨by norm_num [MAX_LOD], le_refl _⟩, ?_, canAscendLOD_lt⟩
  intro s s2 h0 hM h
  exact marchStep_lod_range noise cellD thr ro rd s s2 h0 hM h

/-- Witness for `march_lod_invariant`: one concrete Skip step at
`lod = MAX_LOD` keeps the LOD in range. -/
theorem march_lod_invariant_w :
    0 ≤ (MarchState.mk ⟨128001 / 1000, 1 / 2, 1 / 2⟩ 7).lod ∧
      (MarchState.mk ⟨128001 / 1000, 1 / 2, 1 / 2⟩ 7).lod ≤ MAX_LOD :=
  (march_lod_invariant (fun _ => (0 : ℚ)) (fun _ => (0 : ℚ)) 1 ⟨1 / 2, 1 / 2, 1 / 2⟩
      ⟨1, 0, 0⟩).2.1 ⟨⟨1 / 2, 1 / 2, 1 / 2⟩, 7⟩ ⟨⟨128001 / 1000, 1 / 2, 1 / 2⟩, 7⟩
    (by norm_num) (by norm_num [MAX_LOD])
    (by
      have hc : (evalOctaveCount 7).toNat = 1 := rfl
      have ht : TOTAL_OCTAVES.toNat = 6 := rfl
      have hl : ((7 : ℤ)).toNat = 7 := rfl
      norm_num [marchStep, branchStep, computeBounds, evaluateOctaves, evalOctavesAux,
        sumAmplitudes, amplitude, cellCenter, currentCell, canAscendLOD, ddaExit, ddaTMax,
        ddaDivisor, cellMinOf, cellMaxOf, worldDensity, hitRecAt, missRec, hc, ht, hl,
        MAX_LOD, MAX_DISTANCE, Vec3.add, Vec3.sub, Vec3.scale, Vec3.divs, Vec3.vfloor,
        Vec3.vfract, Vec3.normSq, IVec3.toVec3, izero, vzero, fract,
        Finset.sum_Ico_eq_sum_range, Finset.sum_range_succ])

theorem branchStep_halt_hit (noise : Vec3 → ℚ) (cellD : IVec3 → ℚ) (thr : ℚ)
    (ro rd : Vec3) (s : MarchState) (h : HitRec)
    (hb : branchStep noise cellD thr ro rd s = .halt h) : h.hit = 1 := by
  simp only [branchStep] at hb
  split_ifs at hb
  all_goals
    first
      | exact StepResult.noConfusion hb
      | (injection hb with hb
         rw [← hb]
         rfl)

theorem marchStep_halt_cases (noise : Vec3 → ℚ) (cellD : IVec3 → ℚ) (thr : ℚ)
    (ro rd : Vec3) (s : MarchState) (h : HitRec)
    (hm : marchStep noise cellD thr ro rd s = .halt h) : h = missRec ∨ h.hit = 1 := by
  cases hb : branchStep noise cellD thr ro rd s with
  | halt hh =>
      simp only [marchStep, hb] at hm
      injection hm with hm
      right
      rw [← hm]
      exact branchStep_halt_hit noise cellD thr ro rd s hh hb
  | next s2 =>
      simp only [marchStep, hb] at hm
      split_ifs at hm
      injection hm with hm
      left
      exact hm.symm

theorem marchAux_hit01 (noise : Vec3 → ℚ) (cellD : IVec3 → ℚ) (thr : ℚ) (ro rd : Vec3) :
    ∀ (fuel : ℕ) (s : MarchState),
      (marchAux noise cellD thr ro rd fuel s).hit = 0 ∨
      (marchAux noise cellD thr ro rd fuel s).hit = 1 := by
  intro fuel
  induction fuel with
  | zero => intro s; left; rfl
  | succ n ih =>
      intro s
      cases hm : marchStep noise cellD thr ro rd s with
      | halt h =>
          simp only [marchAux, hm]
          rcases marchStep_halt_cases noise cellD thr ro rd s h hm with rfl | h1
          · left; rfl
          · right; exact h1
      | next s2 =>
          simp only [marchAux, hm]
          exact ih s2

theorem marchStep_dist (noise : Vec3 → ℚ) (cellD : IVec3 → ℚ) (thr : ℚ)
    (ro rd : Vec3) (s s2 : MarchState)
    (h : marchStep noise cellD thr ro rd s = .next s2) :
    Vec3.normSq (Vec3.sub s2.pos ro) ≤ MAX_DISTANCE ^ 2 := by
  cases hb : branchStep noise cellD thr ro rd s with
  | halt hh =>
      simp only [marchStep, hb] at h
      exact StepResult.noConfusion h
  | next s3 =>
      simp only [marchStep, hb] at h
      split_ifs at h with hd
      injection h with h
      subst h
      exact not_lt.mp hd

/-- Claim C8 (confirmed, squared-distance form): `hierarchicalMarch` is
by definition the loop body iterated at most `MAX_STEPS` times from
`(ro, MAX_LOD)`; for every fuel and state the result is a record with
hit flag `0` (Miss) or `1` (Hit); the loop never continues into a state
whose travelled distance exceeds `MAX_DISTANCE`; and an iteration whose
branch would continue past `MAX_DISTANCE` instead returns `Miss()`
immediately. -/
theorem march_termination (noise : Vec3 → ℚ) (cellD : IVec3 → ℚ) (thr : ℚ) (ro rd : Vec3) :
    (hierarchicalMarch noise cellD thr ro rd =
        marchAux noise cellD thr ro rd MAX_STEPS ⟨ro, MAX_LOD⟩) ∧
    (∀ (fuel : ℕ) (s : MarchState),
        (marchAux noise cellD thr ro rd fuel s).hit = 0 ∨
        (marchAux noise cellD thr ro rd fuel s).hit = 1) ∧
    (∀ s s2 : MarchState, marchStep noise cellD thr ro rd s = .next s2 →
        Vec3.normSq (Vec3.sub s2.pos ro) ≤ MAX_DISTANCE ^ 2) ∧
    (∀ s s2 : MarchState, branchStep noise cellD thr ro rd s = .next s2 →
        MAX_DISTANCE ^ 2 < Vec3.normSq (Vec3.sub s2.pos ro) →
        marchStep noise cellD thr ro rd s = .halt missRec) := by
  refine ⟨rfl, marchAux_hit01 noise cellD thr ro rd,
    marchStep_dist noise cellD thr ro rd, ?_⟩
  intro s s2 hb hfar
  simp only [marchStep, hb]
  rw [if_pos hfar]

/-- Witness for `march_termination`: a concrete Skip step stays within
the distance budget. -/
theorem march_termination_w :
    Vec3.normSq (Vec3.sub (⟨128001 / 1000, 1 / 2, 1 / 2⟩ : Vec3) ⟨1 / 2, 1 / 2, 1 / 2⟩) ≤
      MAX_DISTANCE ^ 2 :=
  (march_termination (fun _ => (0 : ℚ)) (fun _ => (0 : ℚ)) 1 ⟨1 / 2, 1 / 2, 1 / 2⟩
      ⟨1, 0, 0⟩).2.2.1 ⟨⟨1 / 2, 1 / 2, 1 / 2⟩, 7⟩ ⟨⟨128001 / 1000, 1 / 2, 1 / 2⟩, 7⟩
    (by
      have hc : (evalOctaveCount 7).toNat = 1 := rfl
      have ht : TOTAL_OCTAVES.toNat = 6 := rfl
      have hl : ((7 : ℤ)).toNat = 7 := rfl
      norm_num [marchStep, branchStep, computeBounds, evaluateOctaves, evalOctavesAux,
        sumAmplitudes, amplitude, cellCenter, currentCell, canAscendLOD, ddaExit, ddaTMax,
        ddaDivisor, cellMinOf, cellMaxOf, worldDensity, hitRecAt, missRec, hc, ht, hl,
        MAX_LOD, MAX_DISTANCE, Vec3.add, Vec3.sub, Vec3.scale, Vec3.divs, Vec3.vfloor,
        Vec3.vfract, Vec3.normSq, IVec3.toVec3, izero, vzero, fract,
        Finset.sum_Ico_eq_sum_range, Finset.sum_range_succ])

/-- Claim C9 (confirmed): when the cell's bounds straddle the threshold
(neither `max < thr` nor `min > thr`) and `lod = 0`, the march samples
the world density directly — at `lod = 0` the sampled cell is exactly
the cell containing the position — and halts with a Hit at the current
position, cell, and travelled distance if and only if that density
exceeds the threshold; otherwise it advances with `ddaExit` at unit cell
size keeping `lod = 0`.  When the bounds straddle and `lod > 0`, it
descends exactly one LOD level without moving the position. -/
theorem uncertain_branch (noise : Vec3 → ℚ) (cellD : IVec3 → ℚ) (thr : ℚ)
    (ro rd : Vec3) (s : MarchState)
    (hmax : ¬ (computeBounds noise (currentCell s) s.lod).max < thr)
    (hmin : ¬ thr < (computeBounds noise (currentCell s) s.lod).min) :
    (s.lod = 0 →
      currentCell s = Vec3.vfloor s.pos ∧
      (branchStep noise cellD thr ro rd s = .halt (hitRecAt ro s (currentCell s)) ↔
        thr < worldDensity cellD s.pos) ∧
      (¬ thr < worldDensity cellD s.pos →
        branchStep noise cellD thr ro rd s =
          .next ⟨ddaExit s.pos rd (currentCell s) 1, s.lod⟩)) ∧
    (0 < s.lod → branchStep noise cellD thr ro rd s = .next ⟨s.pos, s.lod - 1⟩) := by
  constructor
  · intro hlod
    have hcell : currentCell s = Vec3.vfloor s.pos := by
      unfold currentCell
      rw [hlod]
      simp [Vec3.divs, Vec3.vfloor]
    have hb : branchStep noise cellD thr ro rd s =
        if thr < worldDensity cellD s.pos then .halt (hitRecAt ro s (currentCell s))
        else .next ⟨ddaExit s.pos rd (currentCell s) 1, s.lod⟩ := by
      simp only [branchStep, if_neg hmax, if_neg hmin, if_pos hlod]
    refine ⟨hcell, ?_, ?_⟩
    · constructor
      · intro hh
        by_contra hocc
        rw [hb, if_neg hocc] at hh
        cases hh
      · intro hocc
        rw [hb, if_pos hocc]
    · intro hocc
      rw [hb, if_neg hocc]
  · intro hlod
    have hne : ¬ s.lod = 0 := by omega
    simp only [branchStep, if_neg hmax, if_neg hmin, if_neg hne]

/-- Witness for `uncertain_branch`: with zero noise and threshold `0`
the bounds at LOD `0` are exactly `[0,0]` (straddling), and an occupied
cell density of `1` produces a Hit halt. -/
theorem uncertain_branch_w :
    branchStep (fun _ => (0 : ℚ)) (fun _ => (1 : ℚ)) 0 vzero ⟨1, 0, 0⟩
        ⟨⟨1 / 2, 1 / 2, 1 / 2⟩, 0⟩ =
      .halt (hitRecAt vzero ⟨⟨1 / 2, 1 / 2, 1 / 2⟩, 0⟩
        (currentCell ⟨⟨1 / 2, 1 / 2, 1 / 2⟩, 0⟩)) := by
  have hc : (evalOctaveCount 0).toNat = 6 := rfl
  have ht : TOTAL_OCTAVES.toNat = 6 := rfl
  have hmax : ¬ (computeBounds (fun _ => (0 : ℚ))
      (currentCell ⟨⟨1 / 2, 1 / 2, 1 / 2⟩, 0⟩) (0 : ℤ)).max < 0 := by
    norm_num [computeBounds, evaluateOctaves, evalOctavesAux, sumAmplitudes,
      amplitude, cellCenter, currentCell, hc, ht, Vec3.add, Vec3.scale, Vec3.divs,
      Vec3.vfloor, IVec3.toVec3, Finset.sum_Ico_eq_sum_range]
  have hmin : ¬ (0 : ℚ) < (computeBounds (fun _ => (0 : ℚ))
      (currentCell ⟨⟨1 / 2, 1 / 2, 1 / 2⟩, 0⟩) (0 : ℤ)).min := by
    norm_num [computeBounds, evaluateOctaves, evalOctavesAux, sumAmplitudes,
      amplitude, cellCenter, currentCell, hc, ht, Vec3.add, Vec3.scale, Vec3.divs,
      Vec3.vfloor, IVec3.toVec3, Finset.sum_Ico_eq_sum_range]
  exact ((uncertain_branch (fun _ => (0 : ℚ)) (fun _ => (1 : ℚ)) 0 vzero ⟨1, 0, 0⟩
      ⟨⟨1 / 2, 1 / 2, 1 / 2⟩, 0⟩ hmax hmin).1 rfl).2.1.mpr
    (by norm_num [worldDensity, Vec3.vfloor])

theorem marchAux_miss (noise : Vec3 → ℚ) (cellD : IVec3 → ℚ) (thr : ℚ) (ro rd : Vec3) :
    ∀ (fuel : ℕ) (s : MarchState),
      (marchAux noise cellD thr ro rd fuel s).hit = 0 →
      marchAux noise cellD thr ro rd fuel s = missRec := by
  intro fuel
  induction fuel with
  | zero => intro s _; rfl
  | succ n ih =>
      intro s
      cases hm : marchStep noise cellD thr ro rd s with
      | halt h =>
          simp only [marchAux, hm]
          intro hh
          rcases marchStep_halt_cases noise cellD thr ro rd s h hm with rfl | h1
          · rfl
          · rw [hh] at h1; cases h1
      | next s2 =>
          simp only [marchAux, hm]
          exact ih s2

/-- Claim C10 (confirmed, squared-distance form): whenever the march
returns a record with hit flag `0` — whether by exhausting the step
budget or by exceeding `MAX_DISTANCE` — that record is exactly
`Miss()`: flag `0`, position `(0,0,0)`, cell `(0,0,0)`, and distance
exactly `MAX_DISTANCE` (stored squared here), never the distance
actually travelled. -/
theorem miss_record_contents (noise : Vec3 → ℚ) (cellD : IVec3 → ℚ) (thr : ℚ)
    (ro rd : Vec3) :
    (∀ (fuel : ℕ) (s : MarchState),
        (marchAux noise cellD thr ro rd fuel s).hit = 0 →
        marchAux noise cellD thr ro rd fuel s = missRec) ∧
    ((hierarchicalMarch noise cellD thr ro rd).hit = 0 →
        hierarchicalMarch noise cellD thr ro rd = missRec) ∧
    missRec.hit = 0 ∧ missRec.pos = vzero ∧ missRec.cell = izero ∧
    missRec.distanceSq = MAX_DISTANCE ^ 2 :=
  ⟨marchAux_miss noise cellD thr ro rd,
    fun h => marchAux_miss noise cellD thr ro rd MAX_STEPS ⟨ro, MAX_LOD⟩ h,
    rfl, rfl, rfl, rfl⟩

/-- Witness for `miss_record_contents`: an exhausted step budget yields
exactly the canonical Miss record. -/
theorem miss_record_contents_w :
    marchAux (fun _ => (0 : ℚ)) (fun _ => (0 : ℚ)) 0 vzero vzero 0 ⟨vzero, MAX_LOD⟩ =
      missRec :=
  (miss_record_contents (fun _ => (0 : ℚ)) (fun _ => (0 : ℚ)) 0 vzero vzero).1 0
    ⟨vzero, MAX_LOD⟩ rfl

end Toha
